import Mathlib

/-!
Shallow embedding of the repeating-key XOR file codec (`xor_crypto.py`).

Modelling conventions:
* Python `bytes` values are `List Nat` whose elements are < 256; theorems carry
  the `< 256` bounds as hypotheses where they matter.
* Python `str` keys are `List Nat` of Unicode code points (`ord` of each
  character); the code point of a character can exceed 255.
* Python exceptions are modelled by `Except Err`: `ZeroDivisionError` from
  `% len(key)` with an empty key, `ValueError` from the `bytes(...)`
  constructor receiving a value outside 0..255, and the three `ValueError`s
  raised explicitly by `decrypt_file` (missing header, invalid header,
  size mismatch).
* Files are modelled by their byte contents (`List Nat`); reading n bytes from
  a stream is `take`/`drop`.
-/

namespace XorCryptoModel

/-- Failure modes of the codec, one constructor per distinct Python error site. -/
inductive Err
  | zeroDivisionError
  | valueError
  | missingHeader
  | invalidHeader
  | sizeMismatch
deriving DecidableEq

/-- `struct.pack` of an unsigned little-endian integer of `w` bytes
(`'<I'` is `packLE 4`, `'<Q'` is `packLE 8`). -/
def packLE : Nat → Nat → List Nat
  | 0, _ => []
  | w + 1, n => n % 256 :: packLE w (n / 256)

/-- `struct.unpack` of an unsigned little-endian integer from a byte list. -/
def unpackLE : List Nat → Nat
  | [] => 0
  | b :: bs => b + 256 * unpackLE bs

/-- The header record of `xor_crypto.py` (class `CryptoHeader`). -/
structure CryptoHeader where
  magic : Nat
  version : Nat
  original_size : Nat
deriving DecidableEq

namespace CryptoHeader

def MAGIC_NUMBER : Nat := 0x4B50474D

def VERSION : Nat := 1

def HEADER_SIZE : Nat := 16

/-- `CryptoHeader.__init__(file_size)`: magic and version are always set to the
class constants; only `original_size` comes from the argument. -/
def init (file_size : Nat) : CryptoHeader :=
  { magic := MAGIC_NUMBER, version := VERSION, original_size := file_size }

/-- `CryptoHeader.from_bytes`: `None` for fewer than 16 bytes or a wrong magic;
otherwise the header built by `cls(original_size)`.  The version field is
decoded from bytes 4..8 in the source but never used: the constructed header
carries the class constant `VERSION`. -/
def from_bytes (data : List Nat) : Option CryptoHeader :=
  if data.length < HEADER_SIZE then none
  else
    if unpackLE (data.take 4) ≠ MAGIC_NUMBER then none
    else some (init (unpackLE ((data.drop 8).take 8)))

/-- `CryptoHeader.serialize`: little-endian magic (4 bytes), version (4 bytes),
original size (8 bytes), concatenated. -/
def serialize (h : CryptoHeader) : List Nat :=
  packLE 4 h.magic ++ packLE 4 h.version ++ packLE 8 h.original_size

end CryptoHeader

namespace XORCrypto

def CHUNK_SIZE : Nat := 32 * 1024

/-- `XORCrypto.encrypt(data, offset, key)` after the `key if key is not None
else self.key` resolution: the first argument is the key actually used.
Faithful to the generator `byte ^ ord(key[(offset + i) % len(key)])` consumed
by `bytes(...)`: with an empty key the first evaluated element raises
`ZeroDivisionError`; an element value outside 0..255 (possible when a key
character's code point exceeds 255) makes `bytes(...)` raise `ValueError`. -/
def encrypt (key : List Nat) (data : List Nat) (offset : Nat) : Except Err (List Nat) :=
  match data with
  | [] => .ok []
  | b :: rest =>
    if key.length = 0 then .error .zeroDivisionError
    else
      if 256 ≤ b ^^^ key.getD (offset % key.length) 0 then .error .valueError
      else
        match encrypt key rest (offset + 1) with
        | .error e => .error e
        | .ok tail => .ok ((b ^^^ key.getD (offset % key.length) 0) :: tail)

/-- `XORCrypto.decrypt` just calls `encrypt` (XOR is symmetric). -/
def decrypt (key : List Nat) (data : List Nat) (offset : Nat) : Except Err (List Nat) :=
  encrypt key data offset

/-- The pure keystream transform: byte `i` of the result is
`data[i] XOR key[(offset + i) % len(key)]`.  This is the value `encrypt`
returns whenever it does not raise. -/
def xorTransform (key : List Nat) : Nat → List Nat → List Nat
  | _, [] => []
  | offset, b :: rest =>
    (b ^^^ key.getD (offset % key.length) 0) :: xorTransform key (offset + 1) rest

end XORCrypto

open XORCrypto

/-! ### Basic lemmas about the pure transform -/

theorem xorTransform_nil (key : List Nat) (offset : Nat) :
    xorTransform key offset [] = [] := rfl

theorem xorTransform_cons (key : List Nat) (offset b : Nat) (rest : List Nat) :
    xorTransform key offset (b :: rest) =
      (b ^^^ key.getD (offset % key.length) 0) :: xorTransform key (offset + 1) rest := rfl

theorem length_xorTransform (key : List Nat) (offset : Nat) (data : List Nat) :
    (xorTransform key offset data).length = data.length := by
  induction data generalizing offset with
  | nil => rfl
  | cons b rest ih => simp [xorTransform_cons, ih]

theorem xorTransform_append (key : List Nat) (offset : Nat) (a b : List Nat) :
    xorTransform key offset (a ++ b) =
      xorTransform key offset a ++ xorTransform key (offset + a.length) b := by
  induction a generalizing offset with
  | nil => simp [xorTransform_nil]
  | cons x rest ih =>
    simp only [List.cons_append, xorTransform_cons, ih, List.length_cons]
    have h : offset + 1 + rest.length = offset + (rest.length + 1) := by omega
    rw [h]

theorem xor_xor_cancel (a m : Nat) : a ^^^ m ^^^ m = a := by
  rw [Nat.xor_assoc, Nat.xor_self, Nat.xor_zero]

/-- Applying the keystream transform twice at the same offset is the identity. -/
theorem xorTransform_xorTransform (key : List Nat) (offset : Nat) (data : List Nat) :
    xorTransform key offset (xorTransform key offset data) = data := by
  induction data generalizing offset with
  | nil => rfl
  | cons b rest ih => simp [xorTransform_cons, ih, xor_xor_cancel]

theorem getD_mem_of_lt {l : List Nat} {i : Nat} (h : i < l.length) :
    l.getD i 0 ∈ l := by
  rw [List.getD_eq_getElem l 0 h]
  exact List.getElem_mem h

theorem key_byte_lt (key : List Nat) (offset : Nat) (hk : key.length ≠ 0)
    (hkb : ∀ c ∈ key, c < 256) : key.getD (offset % key.length) 0 < 256 :=
  hkb _ (getD_mem_of_lt (Nat.mod_lt _ (Nat.pos_of_ne_zero hk)))

theorem xor_byte_lt {a m : Nat} (ha : a < 256) (hm : m < 256) : a ^^^ m < 256 := by
  have h : (256 : Nat) = 2 ^ 8 := by norm_num
  rw [h] at ha hm ⊢
  exact Nat.xor_lt_two_pow ha hm

/-- The transform of in-range bytes with an in-range key is in-range. -/
theorem mem_xorTransform_lt (key : List Nat) (offset : Nat) (data : List Nat)
    (hk : key.length ≠ 0) (hkb : ∀ c ∈ key, c < 256) (hdb : ∀ b ∈ data, b < 256) :
    ∀ b ∈ xorTransform key offset data, b < 256 := by
  induction data generalizing offset with
  | nil => simp [xorTransform_nil]
  | cons x rest ih =>
    intro b hb
    rw [xorTransform_cons] at hb
    rcases List.mem_cons.mp hb with h | h
    · subst h
      exact xor_byte_lt (hdb x (List.mem_cons_self x rest)) (key_byte_lt key offset hk hkb)
    · exact ih (offset + 1) (fun y hy => hdb y (List.mem_cons_of_mem x hy)) b h

/-- With a non-empty byte-valued key and in-range data bytes, `encrypt` never
raises and returns the pure keystream transform. -/
theorem encrypt_eq_ok (key : List Nat) (data : List Nat) (offset : Nat)
    (hk : key.length ≠ 0) (hkb : ∀ c ∈ key, c < 256) (hdb : ∀ b ∈ data, b < 256) :
    encrypt key data offset = .ok (xorTransform key offset data) := by
  induction data generalizing offset with
  | nil => rfl
  | cons b rest ih =>
    have hb : b < 256 := hdb b (List.mem_cons_self b rest)
    have hm : key.getD (offset % key.length) 0 < 256 := key_byte_lt key offset hk hkb
    have hv : ¬ 256 ≤ b ^^^ key.getD (offset % key.length) 0 :=
      Nat.not_le.mpr (xor_byte_lt hb hm)
    rw [encrypt]
    simp only [hk, if_false, hv, if_false,
      ih (offset + 1) (fun y hy => hdb y (List.mem_cons_of_mem b hy))]
    rfl

/-- Index formula for the transform: byte `i` equals
`data[i] XOR key[(offset + i) % len(key)]`. -/
theorem getD_xorTransform (key : List Nat) (offset : Nat) (data : List Nat)
    (i : Nat) (hi : i < data.length) :
    (xorTransform key offset data).getD i 0 =
      data.getD i 0 ^^^ key.getD ((offset + i) % key.length) 0 := by
  induction data generalizing offset i with
  | nil => simp at hi
  | cons b rest ih =>
    cases i with
    | zero => simp [xorTransform_cons]
    | succ j =>
      have hj : j < rest.length := by simpa using hi
      have h := ih (offset + 1) j hj
      have harith : offset + 1 + j = offset + (j + 1) := by omega
      simpa [xorTransform_cons, harith] using h

/-! ### Little-endian packing lemmas -/

theorem length_packLE (w n : Nat) : (packLE w n).length = w := by
  induction w generalizing n with
  | zero => rfl
  | succ v ih => simp [packLE, ih]

theorem unpackLE_packLE (w n : Nat) : unpackLE (packLE w n) = n % 256 ^ w := by
  induction w generalizing n with
  | zero => simp [packLE, unpackLE, Nat.mod_one]
  | succ v ih =>
    rw [packLE, unpackLE, ih]
    rw [pow_succ, mul_comm (256 ^ v) 256, Nat.mod_mul]

theorem unpackLE_packLE_of_lt {w n : Nat} (h : n < 256 ^ w) :
    unpackLE (packLE w n) = n := by
  rw [unpackLE_packLE, Nat.mod_eq_of_lt h]

theorem mem_packLE_lt (w n : Nat) : ∀ b ∈ packLE w n, b < 256 := by
  induction w generalizing n with
  | zero => simp [packLE]
  | succ v ih =>
    intro b hb
    rw [packLE] at hb
    rcases List.mem_cons.mp hb with h | h
    · subst h; exact Nat.mod_lt _ (by norm_num)
    · exact ih (n / 256) b h

/-! ### The streaming file codec -/

namespace XORCrypto

/-- The chunked encryption loop of `XORCrypto.encrypt_file`, with the chunk
size as a parameter (the source fixes it to the class constant `CHUNK_SIZE`;
the spec calls it a tunable constant).  Each iteration reads `cs` bytes
(`data.take cs`), stops when the read is empty, otherwise encrypts the chunk
at the running offset and advances the offset by the chunk's length. -/
def encryptChunksWith (cs : Nat) (key : List Nat) (offset : Nat) (data : List Nat) :
    Except Err (List Nat) :=
  if data.take cs = [] then .ok []
  else
    match encrypt key (data.take cs) offset with
    | .error e => .error e
    | .ok enc =>
      match encryptChunksWith cs key (offset + (data.take cs).length) (data.drop cs) with
      | .error e => .error e
      | .ok tail => .ok (enc ++ tail)
termination_by data.length
decreasing_by
  have h1 : ¬(data = [] ∨ cs = 0) := by
    intro hor
    apply ‹¬ data.take cs = []›
    rcases hor with h | h <;> simp [h]
  push_neg at h1
  have h2 : data.length ≠ 0 := by
    intro h0
    exact h1.1 (List.eq_nil_of_length_eq_zero h0)
  simp only [List.length_drop]
  omega

/-- `XORCrypto.encrypt_file` on file contents: writes the 16-byte header built
from the source's size, then the chunked encryption of the source at offset 0
(the header is not encrypted and not counted in the offset). -/
def encrypt_file (key : List Nat) (source : List Nat) : Except Err (List Nat) :=
  match encryptChunksWith CHUNK_SIZE key 0 source with
  | .error e => .error e
  | .ok body => .ok ((CryptoHeader.init source.length).serialize ++ body)

/-- The decryption loop of `XORCrypto.decrypt_file`.  Each iteration reads
`min CHUNK_SIZE remaining` bytes from the stream; an empty read with
`remaining > 0` breaks out, and the post-loop check `remaining != 0` then
necessarily raises the size-mismatch `ValueError`, so the break is modelled
as that error; `remaining = 0` exits the loop with the check passing. -/
def decryptLoop (key : List Nat) (offset remaining : Nat) (stream : List Nat) :
    Except Err (List Nat) :=
  if remaining = 0 then .ok []
  else
    if stream.take (min CHUNK_SIZE remaining) = [] then .error .sizeMismatch
    else
      match decrypt key (stream.take (min CHUNK_SIZE remaining)) offset with
      | .error e => .error e
      | .ok dec =>
        match decryptLoop key (offset + (stream.take (min CHUNK_SIZE remaining)).length)
            (remaining - (stream.take (min CHUNK_SIZE remaining)).length)
            (stream.drop (min CHUNK_SIZE remaining)) with
        | .error e => .error e
        | .ok tail => .ok (dec ++ tail)
termination_by remaining
decreasing_by
  have h1 : (stream.take (min CHUNK_SIZE remaining)).length ≠ 0 := by
    intro h0
    exact ‹¬ stream.take (min CHUNK_SIZE remaining) = []›
      (List.eq_nil_of_length_eq_zero h0)
  omega

/-- `XORCrypto.decrypt_file` on file contents: read 16 header bytes (missing
header if fewer), parse them (invalid header on `None`), then run the
decryption loop on the rest of the file with `remaining = original_size`. -/
def decrypt_file (key : List Nat) (file : List Nat) : Except Err (List Nat) :=
  if (file.take CryptoHeader.HEADER_SIZE).length < CryptoHeader.HEADER_SIZE then
    .error .missingHeader
  else
    match CryptoHeader.from_bytes (file.take CryptoHeader.HEADER_SIZE) with
    | none => .error .invalidHeader
    | some header => decryptLoop key 0 header.original_size (file.drop CryptoHeader.HEADER_SIZE)

end XORCrypto

/-! ### Commutation of the transform with take and drop -/

theorem take_xorTransform (key : List Nat) (offset n : Nat) (data : List Nat) :
    (xorTransform key offset data).take n = xorTransform key offset (data.take n) := by
  induction data generalizing offset n with
  | nil => simp [xorTransform_nil]
  | cons b rest ih =>
    cases n with
    | zero => simp [xorTransform_nil]
    | succ m => simp [xorTransform_cons, List.take_succ_cons, ih]

theorem drop_xorTransform (key : List Nat) (offset n : Nat) (data : List Nat) :
    (xorTransform key offset data).drop n = xorTransform key (offset + n) (data.drop n) := by
  induction data generalizing offset n with
  | nil => simp [xorTransform_nil]
  | cons b rest ih =>
    cases n with
    | zero => simp [xorTransform_cons]
    | succ m =>
      have h := ih (offset + 1) m
      have harith : offset + 1 + m = offset + (m + 1) := by omega
      simpa [xorTransform_cons, List.drop_succ_cons, harith] using h

/-! ### Correctness of the chunked encryption loop -/

theorem encryptChunksWith_eq_ok_aux (cs : Nat) (key : List Nat) (hcs : 0 < cs)
    (hk : key.length ≠ 0) (hkb : ∀ c ∈ key, c < 256) :
    ∀ (f : Nat) (data : List Nat) (offset : Nat), data.length ≤ f →
      (∀ b ∈ data, b < 256) →
      encryptChunksWith cs key offset data = .ok (xorTransform key offset data) := by
  intro f
  induction f with
  | zero =>
    intro data offset hf _
    have hdata : data = [] := List.eq_nil_of_length_eq_zero (Nat.le_zero.mp hf)
    subst hdata
    rw [encryptChunksWith]
    simp [xorTransform_nil]
  | succ g ih =>
    intro data offset hf hdb
    rcases eq_or_ne data [] with hdata | hdata
    · subst hdata
      rw [encryptChunksWith]
      simp [xorTransform_nil]
    · have htake : data.take cs ≠ [] := by
        rw [Ne, List.take_eq_nil_iff]
        push_neg
        exact ⟨hcs.ne', hdata⟩
      have hdlen : 0 < data.length := List.length_pos.mpr hdata
      have henc : encrypt key (data.take cs) offset =
          .ok (xorTransform key offset (data.take cs)) :=
        encrypt_eq_ok key (data.take cs) offset hk hkb
          (fun b hb => hdb b (List.mem_of_mem_take hb))
      have hrec : encryptChunksWith cs key (offset + (data.take cs).length) (data.drop cs) =
          .ok (xorTransform key (offset + (data.take cs).length) (data.drop cs)) := by
        apply ih
        · simp only [List.length_drop]
          omega
        · exact fun b hb => hdb b (List.mem_of_mem_drop hb)
      rw [encryptChunksWith]
      simp only [htake, if_false, henc, hrec]
      have hsplit : xorTransform key offset data =
          xorTransform key offset (data.take cs) ++
            xorTransform key (offset + (data.take cs).length) (data.drop cs) := by
        conv_lhs => rw [← List.take_append_drop cs data]
        exact xorTransform_append key offset _ _
      rw [← hsplit]

theorem encryptChunksWith_eq_ok (cs : Nat) (key : List Nat) (offset : Nat) (data : List Nat)
    (hcs : 0 < cs) (hk : key.length ≠ 0) (hkb : ∀ c ∈ key, c < 256)
    (hdb : ∀ b ∈ data, b < 256) :
    encryptChunksWith cs key offset data = .ok (xorTransform key offset data) :=
  encryptChunksWith_eq_ok_aux cs key hcs hk hkb data.length data offset le_rfl hdb

/-! ### Correctness of the decryption loop -/

theorem decryptLoop_roundtrip_aux (key : List Nat) (hk : key.length ≠ 0)
    (hkb : ∀ c ∈ key, c < 256) :
    ∀ (f : Nat) (data : List Nat) (offset : Nat), data.length ≤ f →
      (∀ b ∈ data, b < 256) →
      decryptLoop key offset data.length (xorTransform key offset data) = .ok data := by
  intro f
  induction f with
  | zero =>
    intro data offset hf _
    have hdata : data = [] := List.eq_nil_of_length_eq_zero (Nat.le_zero.mp hf)
    subst hdata
    rw [decryptLoop]
    simp
  | succ g ih =>
    intro data offset hf hdb
    rcases eq_or_ne data [] with hdata | hdata
    · subst hdata
      rw [decryptLoop]
      simp
    · have hdlen : 0 < data.length := List.length_pos.mpr hdata
      have hne : data.length ≠ 0 := hdlen.ne'
      -- the chunk size requested this iteration
      have hcs : 0 < min CHUNK_SIZE data.length := by
        have : (0 : Nat) < CHUNK_SIZE := by norm_num [CHUNK_SIZE]
        omega
      have hcsle : min CHUNK_SIZE data.length ≤ data.length := Nat.min_le_right _ _
      -- the chunk actually read
      have htakechunk : (xorTransform key offset data).take (min CHUNK_SIZE data.length) =
          xorTransform key offset (data.take (min CHUNK_SIZE data.length)) :=
        take_xorTransform key offset _ data
      have hchunklen : (xorTransform key offset (data.take (min CHUNK_SIZE data.length))).length =
          min CHUNK_SIZE data.length := by
        rw [length_xorTransform, List.length_take]
        omega
      have hchunkne : xorTransform key offset (data.take (min CHUNK_SIZE data.length)) ≠ [] := by
        intro h0
        rw [h0] at hchunklen
        simp at hchunklen
        omega
      have hchunkbytes : ∀ b ∈ xorTransform key offset (data.take (min CHUNK_SIZE data.length)),
          b < 256 :=
        mem_xorTransform_lt key offset _ hk hkb
          (fun b hb => hdb b (List.mem_of_mem_take hb))
      have hdec : decrypt key (xorTransform key offset (data.take (min CHUNK_SIZE data.length)))
          offset = .ok (data.take (min CHUNK_SIZE data.length)) := by
        rw [decrypt, encrypt_eq_ok key _ offset hk hkb hchunkbytes,
          xorTransform_xorTransform]
      have hdrop : (xorTransform key offset data).drop (min CHUNK_SIZE data.length) =
          xorTransform key (offset + min CHUNK_SIZE data.length)
            (data.drop (min CHUNK_SIZE data.length)) :=
        drop_xorTransform key offset _ data
      have hreclen : data.length - min CHUNK_SIZE data.length =
          (data.drop (min CHUNK_SIZE data.length)).length := by
        rw [List.length_drop]
      have hrec : decryptLoop key (offset + min CHUNK_SIZE data.length)
          ((data.drop (min CHUNK_SIZE data.length)).length)
          (xorTransform key (offset + min CHUNK_SIZE data.length)
            (data.drop (min CHUNK_SIZE data.length))) =
          .ok (data.drop (min CHUNK_SIZE data.length)) := by
        apply ih
        · simp only [List.length_drop]
          omega
        · exact fun b hb => hdb b (List.mem_of_mem_drop hb)
      rw [decryptLoop]
      simp only [hne, if_false, htakechunk, hchunkne, if_false, hdec, hchunklen, hreclen,
        hdrop, hrec]
      rw [List.take_append_drop]

theorem decryptLoop_roundtrip (key : List Nat) (offset : Nat) (data : List Nat)
    (hk : key.length ≠ 0) (hkb : ∀ c ∈ key, c < 256) (hdb : ∀ b ∈ data, b < 256) :
    decryptLoop key offset data.length (xorTransform key offset data) = .ok data :=
  decryptLoop_roundtrip_aux key hk hkb data.length data offset le_rfl hdb

/-! ### Header serialization facts -/

theorem length_serialize (h : CryptoHeader) : h.serialize.length = 16 := by
  simp [CryptoHeader.serialize, length_packLE]

theorem serialize_init (n : Nat) :
    (CryptoHeader.init n).serialize =
      0x4D :: 0x47 :: 0x50 :: 0x4B :: 1 :: 0 :: 0 :: 0 :: packLE 8 n := by
  norm_num [CryptoHeader.serialize, CryptoHeader.init, CryptoHeader.MAGIC_NUMBER,
    CryptoHeader.VERSION, packLE]

theorem from_bytes_serialize (n : Nat) (hn : n < 2 ^ 64) :
    CryptoHeader.from_bytes ((CryptoHeader.init n).serialize) =
      some (CryptoHeader.init n) := by
  rw [CryptoHeader.from_bytes, serialize_init]
  have hlen : (0x4D :: 0x47 :: 0x50 :: 0x4B :: 1 :: 0 :: 0 :: 0 :: packLE 8 n).length = 16 := by
    simp [length_packLE]
  rw [hlen]
  have hmag : unpackLE ((0x4D :: 0x47 :: 0x50 :: 0x4B :: 1 :: 0 :: 0 :: 0 ::
      packLE 8 n).take 4) = CryptoHeader.MAGIC_NUMBER := by
    simp [List.take, unpackLE, CryptoHeader.MAGIC_NUMBER]
  have hdrop : ((0x4D :: 0x47 :: 0x50 :: 0x4B :: 1 :: 0 :: 0 :: 0 ::
      packLE 8 n).drop 8).take 8 = packLE 8 n := by
    simp only [List.drop_succ_cons, List.drop_zero]
    exact List.take_of_length_le (by rw [length_packLE])
  rw [hmag, hdrop]
  have hn' : n < 256 ^ 8 := by
    have : (256 : Nat) ^ 8 = 2 ^ 64 := by norm_num
    omega
  simp [CryptoHeader.HEADER_SIZE, unpackLE_packLE_of_lt hn']

/-! ### File-level composition lemmas -/

theorem encrypt_file_eq (key source : List Nat) (hk : key.length ≠ 0)
    (hkb : ∀ c ∈ key, c < 256) (hsb : ∀ b ∈ source, b < 256) :
    encrypt_file key source =
      .ok ((CryptoHeader.init source.length).serialize ++ xorTransform key 0 source) := by
  rw [encrypt_file,
    encryptChunksWith_eq_ok CHUNK_SIZE key 0 source (by norm_num [CHUNK_SIZE]) hk hkb hsb]

/-- `decrypt_file` on a well-formed file (valid header declaring `n`, followed
by any payload) reduces to the decryption loop on the payload. -/
theorem decrypt_file_header_body (key body : List Nat) (n : Nat) (hn : n < 2 ^ 64) :
    decrypt_file key ((CryptoHeader.init n).serialize ++ body) = decryptLoop key 0 n body := by
  have htake : ((CryptoHeader.init n).serialize ++ body).take CryptoHeader.HEADER_SIZE =
      (CryptoHeader.init n).serialize :=
    List.take_left' (by rw [length_serialize]; rfl)
  have hdrop : ((CryptoHeader.init n).serialize ++ body).drop CryptoHeader.HEADER_SIZE = body :=
    List.drop_left' (by rw [length_serialize]; rfl)
  rw [decrypt_file, htake, hdrop, length_serialize, from_bytes_serialize n hn]
  simp [CryptoHeader.HEADER_SIZE, CryptoHeader.init]

/-! ### Truncated-payload behaviour of the decryption loop -/

theorem decryptLoop_short_aux (key : List Nat) (hk : key.length ≠ 0)
    (hkb : ∀ c ∈ key, c < 256) :
    ∀ (f remaining : Nat) (payload : List Nat) (offset : Nat), remaining ≤ f →
      (∀ b ∈ payload, b < 256) → payload.length < remaining →
      decryptLoop key offset remaining payload = .error .sizeMismatch := by
  intro f
  induction f with
  | zero =>
    intro remaining payload offset hf _ hlt
    omega
  | succ g ih =>
    intro remaining payload offset hf hpb hlt
    have hrem : remaining ≠ 0 := by omega
    rcases eq_or_ne payload [] with hp | hp
    · subst hp
      rw [decryptLoop]
      simp [hrem]
    · have hcs : 0 < min CHUNK_SIZE remaining := by
        have h0 : (0 : Nat) < CHUNK_SIZE := by norm_num [CHUNK_SIZE]
        omega
      have htne : payload.take (min CHUNK_SIZE remaining) ≠ [] := by
        rw [Ne, List.take_eq_nil_iff]
        push_neg
        exact ⟨hcs.ne', hp⟩
      have hdec : decrypt key (payload.take (min CHUNK_SIZE remaining)) offset =
          .ok (xorTransform key offset (payload.take (min CHUNK_SIZE remaining))) := by
        rw [decrypt]
        exact encrypt_eq_ok key _ offset hk hkb
          (fun b hb => hpb b (List.mem_of_mem_take hb))
      have hchunklen : (payload.take (min CHUNK_SIZE remaining)).length =
          min (min CHUNK_SIZE remaining) payload.length := List.length_take _ _
      have hrec : decryptLoop key (offset + (payload.take (min CHUNK_SIZE remaining)).length)
          (remaining - (payload.take (min CHUNK_SIZE remaining)).length)
          (payload.drop (min CHUNK_SIZE remaining)) = .error .sizeMismatch := by
        apply ih
        · have h1 : 0 < (payload.take (min CHUNK_SIZE remaining)).length :=
            List.length_pos.mpr htne
          omega
        · exact fun b hb => hpb b (List.mem_of_mem_drop hb)
        · rw [List.length_drop, hchunklen]
          omega
      rw [decryptLoop]
      simp only [hrem, if_false, htne, if_false, hdec, hrec]

theorem decryptLoop_short (key : List Nat) (offset remaining : Nat) (payload : List Nat)
    (hk : key.length ≠ 0) (hkb : ∀ c ∈ key, c < 256)
    (hpb : ∀ b ∈ payload, b < 256) (hlt : payload.length < remaining) :
    decryptLoop key offset remaining payload = .error .sizeMismatch :=
  decryptLoop_short_aux key hk hkb remaining remaining payload offset le_rfl hpb hlt

/-! ### Byte-range predicate (executable form of "is a sequence of bytes") -/

def isByteList (l : List Nat) : Bool := l.all (fun c => c < 256)

theorem isByteList_iff (l : List Nat) : isByteList l = true ↔ ∀ b ∈ l, b < 256 := by
  simp [isByteList]

theorem isByteList_sound (l : List Nat) (h : isByteList l = true) : ∀ b ∈ l, b < 256 :=
  (isByteList_iff l).mp h

theorem ne_nil_length (l : List Nat) (h : l ≠ []) : l.length ≠ 0 :=
  fun h0 => h (List.eq_nil_of_length_eq_zero h0)

/-- Applying `encrypt` twice at the same offset (first the data, then the
result), propagating a failure of the first application. -/
def transformTwice (key : List Nat) (o : Nat) (d : List Nat) : Except Err (List Nat) :=
  match encrypt key d o with
  | .error e => .error e
  | .ok ct => encrypt key ct o

/-! ### The claims -/

/-- C1: for every byte sequence `d`, every offset `o`, and every non-empty
key `k` of byte-valued characters, applying the transform twice at the same
offset with the same key returns `d`; and `decrypt` is the identical
operation to `encrypt`. -/
theorem claim_C1_involution (key d : List Nat) (o : Nat) (hk : key ≠ [])
    (hkb : isByteList key = true) (hdb : isByteList d = true) :
    transformTwice key o d = .ok d ∧ decrypt key d o = encrypt key d o := by
  have hk' : key.length ≠ 0 := ne_nil_length key hk
  have hkb' := isByteList_sound key hkb
  have hdb' := isByteList_sound d hdb
  refine ⟨?_, rfl⟩
  rw [transformTwice]
  simp only [encrypt_eq_ok key d o hk' hkb' hdb',
    encrypt_eq_ok key _ o hk' hkb' (mem_xorTransform_lt key o d hk' hkb' hdb'),
    xorTransform_xorTransform]

theorem claim_C1_witness :
    ([107] : List Nat) ≠ [] ∧ isByteList [107] = true ∧ isByteList [65, 66, 67] = true ∧
      (transformTwice [107] 5 [65, 66, 67] = .ok [65, 66, 67] ∧
        decrypt [107] [65, 66, 67] 5 = encrypt [107] [65, 66, 67] 5) :=
  ⟨by decide, by decide, by decide,
    claim_C1_involution [107] [65, 66, 67] 5 (by decide) (by decide) (by decide)⟩

/-- C3: on a non-empty byte-valued key, `encrypt` succeeds with a sequence of
the same length whose byte `i` is `data[i] XOR key[(o + i) % len(key)]`; the
empty input yields the empty output for any offset and key (`key2`, `o2` are
unconstrained). -/
theorem claim_C3_transform_formula (key key2 data : List Nat) (o o2 i : Nat)
    (hk : key ≠ []) (hkb : isByteList key = true) (hdb : isByteList data = true)
    (hi : i < data.length) :
    encrypt key2 [] o2 = .ok [] ∧
    encrypt key data o = .ok (xorTransform key o data) ∧
    (xorTransform key o data).length = data.length ∧
    (xorTransform key o data).getD i 0 =
      data.getD i 0 ^^^ key.getD ((o + i) % key.length) 0 := by
  have hk' : key.length ≠ 0 := ne_nil_length key hk
  exact ⟨rfl, encrypt_eq_ok key data o hk' (isByteList_sound key hkb) (isByteList_sound data hdb),
    length_xorTransform key o data, getD_xorTransform key o data i hi⟩

theorem claim_C3_witness :
    ([107, 200] : List Nat) ≠ [] ∧ isByteList [107, 200] = true ∧
      isByteList [0, 255, 7] = true ∧ (2 : Nat) < ([0, 255, 7] : List Nat).length ∧
      (encrypt [] [] 9 = .ok [] ∧
        encrypt [107, 200] [0, 255, 7] 1 = .ok (xorTransform [107, 200] 1 [0, 255, 7]) ∧
        (xorTransform [107, 200] 1 [0, 255, 7]).length = ([0, 255, 7] : List Nat).length ∧
        (xorTransform [107, 200] 1 [0, 255, 7]).getD 2 0 =
          ([0, 255, 7] : List Nat).getD 2 0 ^^^
            ([107, 200] : List Nat).getD ((1 + 2) % ([107, 200] : List Nat).length) 0) :=
  ⟨by decide, by decide, by decide, by decide,
    claim_C3_transform_formula [107, 200] [] [0, 255, 7] 1 9 2
      (by decide) (by decide) (by decide) (by decide)⟩

/-- C4: the mask depends only on the absolute offset, so the ciphertext of a
concatenation splits at the shifted offset, and the chunked encryption loop
gives the same answer for any two positive chunk sizes. -/
theorem claim_C4_chunk_independence (key a b p : List Nat) (o cs1 cs2 : Nat)
    (hk : key ≠ []) (hkb : isByteList key = true)
    (hab : isByteList a = true) (hbb : isByteList b = true) (hpb : isByteList p = true)
    (hcs1 : 0 < cs1) (hcs2 : 0 < cs2) :
    encrypt key (a ++ b) o =
      .ok (xorTransform key o a ++ xorTransform key (o + a.length) b) ∧
    encrypt key a o = .ok (xorTransform key o a) ∧
    encrypt key b (o + a.length) = .ok (xorTransform key (o + a.length) b) ∧
    encryptChunksWith cs1 key 0 p = encryptChunksWith cs2 key 0 p := by
  have hk' : key.length ≠ 0 := ne_nil_length key hk
  have hkb' := isByteList_sound key hkb
  have hab' := isByteList_sound a hab
  have hbb' := isByteList_sound b hbb
  have hpb' := isByteList_sound p hpb
  have habb : ∀ x ∈ a ++ b, x < 256 := by
    intro x hx
    rcases List.mem_append.mp hx with h | h
    · exact hab' x h
    · exact hbb' x h
  refine ⟨?_, encrypt_eq_ok key a o hk' hkb' hab',
    encrypt_eq_ok key b (o + a.length) hk' hkb' hbb', ?_⟩
  · rw [encrypt_eq_ok key (a ++ b) o hk' hkb' habb, xorTransform_append]
  · rw [encryptChunksWith_eq_ok cs1 key 0 p hcs1 hk' hkb' hpb',
      encryptChunksWith_eq_ok cs2 key 0 p hcs2 hk' hkb' hpb']

theorem claim_C4_witness :
    ([3] : List Nat) ≠ [] ∧ isByteList [3] = true ∧ isByteList [1, 2] = true ∧
      isByteList [4, 5, 6] = true ∧ isByteList [9, 8, 7, 6] = true ∧
      (0 : Nat) < 1 ∧ (0 : Nat) < 7 ∧
      (encrypt [3] ([1, 2] ++ [4, 5, 6]) 4 =
          .ok (xorTransform [3] 4 [1, 2] ++
            xorTransform [3] (4 + ([1, 2] : List Nat).length) [4, 5, 6]) ∧
        encrypt [3] [1, 2] 4 = .ok (xorTransform [3] 4 [1, 2]) ∧
        encrypt [3] [4, 5, 6] (4 + ([1, 2] : List Nat).length) =
          .ok (xorTransform [3] (4 + ([1, 2] : List Nat).length) [4, 5, 6]) ∧
        encryptChunksWith 1 [3] 0 [9, 8, 7, 6] = encryptChunksWith 7 [3] 0 [9, 8, 7, 6]) :=
  ⟨by decide, by decide, by decide, by decide, by decide, by decide, by decide,
    claim_C4_chunk_independence [3] [1, 2] [4, 5, 6] [9, 8, 7, 6] 4 1 7
      (by decide) (by decide) (by decide) (by decide) (by decide) (by decide) (by decide)⟩

/-- `encrypt_file` followed by `decrypt_file` with the same key, propagating a
failure of the encryption step. -/
def encryptThenDecryptFile (key source : List Nat) : Except Err (List Nat) :=
  match encrypt_file key source with
  | .error e => .error e
  | .ok ct => decrypt_file key ct

/-- C2: encrypting a file and decrypting the result with the same non-empty
byte-valued key reproduces the source exactly; a zero-length plaintext yields
exactly the header with `original_size = 0` and no ciphertext payload. -/
theorem claim_C2_file_roundtrip (key source : List Nat) (hk : key ≠ [])
    (hkb : isByteList key = true) (hsb : isByteList source = true)
    (hsz : source.length < 2 ^ 64) :
    encryptThenDecryptFile key source = .ok source ∧
    encrypt_file key [] = .ok ((CryptoHeader.init 0).serialize) := by
  have hk' : key.length ≠ 0 := ne_nil_length key hk
  have hkb' := isByteList_sound key hkb
  have hsb' := isByteList_sound source hsb
  constructor
  · rw [encryptThenDecryptFile]
    simp only [encrypt_file_eq key source hk' hkb' hsb']
    rw [decrypt_file_header_body key _ source.length hsz]
    exact decryptLoop_roundtrip key 0 source hk' hkb' hsb'
  · rw [encrypt_file_eq key [] hk' hkb' (by simp), xorTransform_nil, List.append_nil]
    rfl

theorem claim_C2_witness :
    ([107] : List Nat) ≠ [] ∧ isByteList [107] = true ∧ isByteList [10, 20, 30] = true ∧
      ([10, 20, 30] : List Nat).length < 2 ^ 64 ∧
      (encryptThenDecryptFile [107] [10, 20, 30] = .ok [10, 20, 30] ∧
        encrypt_file [107] [] = .ok ((CryptoHeader.init 0).serialize)) :=
  ⟨by decide, by decide, by decide, by decide,
    claim_C2_file_roundtrip [107] [10, 20, 30] (by decide) (by decide) (by decide) (by decide)⟩

/-- C5: `from_bytes` returns `none` exactly when fewer than 16 bytes are
supplied or the first four bytes, read little-endian, differ from the magic
constant; when those two checks pass it succeeds whatever the version field
(bytes 4..8) holds, returning the header built from the decoded size. -/
theorem claim_C5_header_rejection (data data2 : List Nat) (hlen : 16 ≤ data.length)
    (hmag : unpackLE (data.take 4) = CryptoHeader.MAGIC_NUMBER) :
    (CryptoHeader.from_bytes data2 = none ↔
      data2.length < 16 ∨ unpackLE (data2.take 4) ≠ CryptoHeader.MAGIC_NUMBER) ∧
    CryptoHeader.from_bytes data =
      some (CryptoHeader.init (unpackLE ((data.drop 8).take 8))) := by
  constructor
  · by_cases h1 : data2.length < 16
    · simp [CryptoHeader.from_bytes, CryptoHeader.HEADER_SIZE, h1]
    · by_cases h2 : unpackLE (data2.take 4) = CryptoHeader.MAGIC_NUMBER
      · simp [CryptoHeader.from_bytes, CryptoHeader.HEADER_SIZE, h1, h2]
      · simp [CryptoHeader.from_bytes, CryptoHeader.HEADER_SIZE, h1, h2]
  · have h1 : ¬ data.length < 16 := by omega
    simp [CryptoHeader.from_bytes, CryptoHeader.HEADER_SIZE, h1, hmag]

theorem claim_C5_witness :
    (16 : Nat) ≤ ([0x4D, 0x47, 0x50, 0x4B, 0xE7, 3, 0, 0,
        5, 0, 0, 0, 0, 0, 0, 0] : List Nat).length ∧
      unpackLE (([0x4D, 0x47, 0x50, 0x4B, 0xE7, 3, 0, 0,
        5, 0, 0, 0, 0, 0, 0, 0] : List Nat).take 4) = CryptoHeader.MAGIC_NUMBER ∧
      ((CryptoHeader.from_bytes [1, 2, 3] = none ↔
          ([1, 2, 3] : List Nat).length < 16 ∨
            unpackLE (([1, 2, 3] : List Nat).take 4) ≠ CryptoHeader.MAGIC_NUMBER) ∧
        CryptoHeader.from_bytes [0x4D, 0x47, 0x50, 0x4B, 0xE7, 3, 0, 0,
            5, 0, 0, 0, 0, 0, 0, 0] =
          some (CryptoHeader.init (unpackLE
            ((([0x4D, 0x47, 0x50, 0x4B, 0xE7, 3, 0, 0,
              5, 0, 0, 0, 0, 0, 0, 0] : List Nat).drop 8).take 8)))) :=
  ⟨by decide, by decide,
    claim_C5_header_rejection
      [0x4D, 0x47, 0x50, 0x4B, 0xE7, 3, 0, 0, 5, 0, 0, 0, 0, 0, 0, 0]
      [1, 2, 3] (by decide) (by decide)⟩

/-- C6: a ciphertext with a valid header declaring `n` bytes but a payload
shorter than `n` makes `decrypt_file` fail with the size-mismatch error:
the loop's empty read breaks out with `remaining > 0` and the post-loop
check then raises; a truncated file never decrypts silently. -/
theorem claim_C6_truncation_detected (key payload : List Nat) (n : Nat)
    (hk : key ≠ []) (hkb : isByteList key = true) (hpb : isByteList payload = true)
    (hlt : payload.length < n) (hn : n < 2 ^ 64) :
    decrypt_file key ((CryptoHeader.init n).serialize ++ payload) =
      .error .sizeMismatch := by
  rw [decrypt_file_header_body key payload n hn]
  exact decryptLoop_short key 0 n payload (ne_nil_length key hk)
    (isByteList_sound key hkb) (isByteList_sound payload hpb) hlt

theorem claim_C6_witness :
    ([107] : List Nat) ≠ [] ∧ isByteList [107] = true ∧ isByteList [1, 2] = true ∧
      ([1, 2] : List Nat).length < 3 ∧ (3 : Nat) < 2 ^ 64 ∧
      decrypt_file [107] ((CryptoHeader.init 3).serialize ++ [1, 2]) =
        .error .sizeMismatch :=
  ⟨by decide, by decide, by decide, by decide, by decide,
    claim_C6_truncation_detected [107] [1, 2] 3
      (by decide) (by decide) (by decide) (by decide) (by decide)⟩

/-- C7: what the code actually does with a zero-length key: the session is
constructed without any validation (`__init__` only stores the key), the
transform of empty data still succeeds, and the first transform of non-empty
data fails with the division-by-zero error from `% len(key)` — the rejection
the claim requires never happens. -/
theorem claim_C7_empty_key_behavior :
    encrypt [] [0] 0 = .error .zeroDivisionError ∧ encrypt [] [] 0 = .ok [] :=
  ⟨rfl, rfl⟩

/-- C8: `serialize` is exactly 16 bytes, the little-endian magic, version and
original size concatenated in that order; parsing the serialization of a
header built from any `original_size` below `2 ^ 64` succeeds and returns a
header with that same size. -/
theorem claim_C8_serialize_layout (h : CryptoHeader) (n : Nat) (hn : n < 2 ^ 64) :
    h.serialize.length = 16 ∧
    h.serialize = packLE 4 h.magic ++ packLE 4 h.version ++ packLE 8 h.original_size ∧
    CryptoHeader.from_bytes ((CryptoHeader.init n).serialize) = some (CryptoHeader.init n) ∧
    (CryptoHeader.init n).original_size = n :=
  ⟨length_serialize h, rfl, from_bytes_serialize n hn, rfl⟩

theorem claim_C8_witness :
    (123456789 : Nat) < 2 ^ 64 ∧
      ((CryptoHeader.init 3).serialize.length = 16 ∧
        (CryptoHeader.init 3).serialize =
          packLE 4 (CryptoHeader.init 3).magic ++ packLE 4 (CryptoHeader.init 3).version ++
            packLE 8 (CryptoHeader.init 3).original_size ∧
        CryptoHeader.from_bytes ((CryptoHeader.init 123456789).serialize) =
          some (CryptoHeader.init 123456789) ∧
        (CryptoHeader.init 123456789).original_size = 123456789) :=
  ⟨by decide, claim_C8_serialize_layout (CryptoHeader.init 3) 123456789 (by decide)⟩

/-- C9 counterexample: the key character with code point 256 (one past the
byte range) is not clamped: transforming the single zero byte with that key
fails with the out-of-range `ValueError` from `bytes(...)`, so the
out-of-range-byte error branch is reachable and the claim as stated is
false. -/
theorem claim_C9_counterexample : encrypt [256] [0] 0 = .error .valueError := rfl

/-- C9 amended: for every non-empty key all of whose characters are byte
values (code points at most 255), the transform returns a byte sequence
without error for every input and offset, and every output value fits in one
byte; a key character above 255 instead makes the transform raise on data
that reaches it. -/
theorem claim_C9_amended (key data : List Nat) (o : Nat) (hk : key ≠ [])
    (hkb : isByteList key = true) (hdb : isByteList data = true) :
    encrypt key data o = .ok (xorTransform key o data) ∧
    isByteList (xorTransform key o data) = true := by
  have hk' : key.length ≠ 0 := ne_nil_length key hk
  have hkb' := isByteList_sound key hkb
  have hdb' := isByteList_sound data hdb
  exact ⟨encrypt_eq_ok key data o hk' hkb' hdb',
    (isByteList_iff _).mpr (mem_xorTransform_lt key o data hk' hkb' hdb')⟩

theorem claim_C9_amended_witness :
    ([255, 10] : List Nat) ≠ [] ∧ isByteList [255, 10] = true ∧
      isByteList [0, 1, 2] = true ∧
      (encrypt [255, 10] [0, 1, 2] 7 = .ok (xorTransform [255, 10] 7 [0, 1, 2]) ∧
        isByteList (xorTransform [255, 10] 7 [0, 1, 2]) = true) :=
  ⟨by decide, by decide, by decide,
    claim_C9_amended [255, 10] [0, 1, 2] 7 (by decide) (by decide) (by decide)⟩

/-- C10: every header `from_bytes` returns has the constant magic and version
1, whatever version value bytes 4..8 of the input encode (the decoded version
is discarded by the `cls(original_size)` construction); re-serializing such a
header therefore declares version 1 in bytes 4..8. -/
theorem claim_C10_version_discarded (data : List Nat) (h : CryptoHeader)
    (hh : CryptoHeader.from_bytes data = some h) :
    h.magic = CryptoHeader.MAGIC_NUMBER ∧ h.version = 1 ∧
    (h.serialize.drop 4).take 4 = packLE 4 1 := by
  rw [CryptoHeader.from_bytes] at hh
  split_ifs at hh with h1 h2
  simp only [Option.some.injEq] at hh
  subst hh
  refine ⟨rfl, rfl, ?_⟩
  rw [serialize_init]
  rfl

theorem claim_C10_witness :
    CryptoHeader.from_bytes [0x4D, 0x47, 0x50, 0x4B, 7, 0, 0, 0,
        2, 0, 0, 0, 0, 0, 0, 0] = some (CryptoHeader.init 2) ∧
      ((CryptoHeader.init 2).magic = CryptoHeader.MAGIC_NUMBER ∧
        (CryptoHeader.init 2).version = 1 ∧
        ((CryptoHeader.init 2).serialize.drop 4).take 4 = packLE 4 1) :=
  ⟨by decide,
    claim_C10_version_discarded [0x4D, 0x47, 0x50, 0x4B, 7, 0, 0, 0,
      2, 0, 0, 0, 0, 0, 0, 0] (CryptoHeader.init 2) (by decide)⟩

end XorCryptoModel
